import Mathlib

/-!
Verification of `hloc/extract_features.py`: a shallow embedding of the
image-path resolution of `ImageDataset.__init__`, the resize policy of
`ImageDataset.__getitem__`, the keypoint rescaling, half-precision downcast
and resumable extraction loop of `main`, together with theorems about the
properties stated in the design document.

Numeric array values are modelled as exact rationals; the two explicit
dtype conversions of the source (`.astype(np.float32)` on the scale factors
and `.astype(np.float16)` on downcast) are modelled by explicit value-level
parameters so that statements stay faithful to where the source converts.
-/

namespace HlocExtract

/-- Preprocessing configuration: the merge of `ImageDataset.default_conf`
with the user configuration (`SimpleNamespace(**{**default_conf, **conf})`).
`resizeMax = none` models Python `resize_max = None`. -/
structure PreprocConf where
  globs : List String
  grayscale : Bool
  resizeMax : Option Nat
  resizeForce : Bool

/-- Python `round` applied to the exact value: round half to even. -/
def pyRound (q : ℚ) : ℤ :=
  if q - ⌊q⌋ < 1/2 then ⌊q⌋
  else if 1/2 < q - ⌊q⌋ then ⌊q⌋ + 1
  else if ⌊q⌋ % 2 = 0 then ⌊q⌋ else ⌊q⌋ + 1

/-- Resampling decision of `ImageDataset.__getitem__` (line 132):
`if self.conf.resize_max and (self.conf.resize_force or max(w, h) >
self.conf.resize_max)`.  Python truthiness of `resize_max` is `≠ 0` on a
present value and false on `None`. -/
def shouldResize (conf : PreprocConf) (w h : Nat) : Bool :=
  match conf.resizeMax with
  | none => false
  | some m => decide (m ≠ 0) && (conf.resizeForce || decide (m < max w h))

/-- Size `(w_new, h_new)` of the image tensor after the optional resize of
`ImageDataset.__getitem__` (lines 132-137): `scale = resize_max / max(h, w)`;
`h_new, w_new = int(round(h*scale)), int(round(w*scale))`. -/
def processedSize (conf : PreprocConf) (w h : Nat) : ℤ × ℤ :=
  match conf.resizeMax with
  | none => ((w : ℤ), (h : ℤ))
  | some m =>
      if m ≠ 0 ∧ (conf.resizeForce = true ∨ m < max w h) then
        (pyRound ((w : ℚ) * ((m : ℚ) / ((max h w : Nat) : ℚ))),
         pyRound ((h : ℚ) * ((m : ℚ) / ((max h w : Nat) : ℚ))))
      else ((w : ℤ), (h : ℤ))

/-- An inference result as handled by `main` (lines 184-201): an optional
`keypoints` field (rows `(x, y)`), the `image_size` field that `main` adds,
and the remaining model-dependent fields, which `main` stores untouched.
Values are exact rationals. -/
structure PredRecord where
  keypoints : Option (List (ℚ × ℚ))
  imageSize : Option (Nat × Nat)
  others : List (String × List ℚ)
deriving DecidableEq

/-- Postprocessing of `main` (lines 186-190): attach
`pred['image_size'] = original_size`, and when a `keypoints` field is present
rescale it by `scales = (original_size / size).astype(np.float32)` via
`(pred['keypoints'] + .5) * scales[None] - .5`.  Sizes are `(width, height)`
pairs; the `.astype(np.float32)` cast of the scale factors is modelled by the
explicit parameter `castF32` (the identity on values exactly representable
in binary32, e.g. `castF32 1 = 1`). -/
def postprocessPred (castF32 : ℚ → ℚ) (originalSize procSize : Nat × Nat)
    (pred : PredRecord) : PredRecord :=
  let withSize : PredRecord := { pred with imageSize := some originalSize }
  match pred.keypoints with
  | none => withSize
  | some kps =>
      { withSize with keypoints := some (kps.map fun kp =>
          ((kp.1 + 1/2) * castF32 ((originalSize.1 : ℚ) / (procSize.1 : ℚ)) - 1/2,
           (kp.2 + 1/2) * castF32 ((originalSize.2 : ℚ) / (procSize.2 : ℚ)) - 1/2)) }

/-- Numpy dtypes that occur in stored records. -/
inductive Dtype where
  | f16
  | f32
  | f64
  | i32
  | i64
deriving DecidableEq

/-- Floating-point dtypes. -/
def Dtype.isFloat : Dtype → Bool
  | .f16 => true
  | .f32 => true
  | .f64 => true
  | _ => false

/-- A numeric array: a dtype tag plus its (flattened) values. -/
structure NArr where
  dtype : Dtype
  data : List ℚ
deriving DecidableEq

/-- Downcast step of `main` (lines 192-196): when `as_half`, every field with
`dt == np.float32 and dt != np.float16` is converted with
`.astype(np.float16)`; the value rounding of that cast is modelled by the
explicit parameter `castF16`. -/
def downcastPred (castF16 : ℚ → ℚ) (asHalf : Bool) (pred : List (String × NArr)) :
    List (String × NArr) :=
  if asHalf then
    pred.map fun kv =>
      if kv.2.dtype = .f32 ∧ kv.2.dtype ≠ .f16 then
        (kv.1, NArr.mk .f16 (kv.2.data.map castF16))
      else kv
  else pred

/-- Error cases raised by `ImageDataset.__init__` (all `ValueError` in the
source, distinguished here by their message). -/
inductive DatasetErr where
  | emptyDataset
  | missingImage (name : String)
  | invalidInput
deriving DecidableEq

/-- The `paths` argument of `ImageDataset.__init__`: `None` (glob discovery),
a `Path`/`str` image-list file (given by its lines), an iterable of names
(`Path` entries already converted by `as_posix`), or anything else. -/
inductive PathsArg where
  | noneArg
  | listFile (lines : List String)
  | mem (entries : List String)
  | invalid

/-- Abstraction of the filesystem under `root`: `globMatches` is the
concatenation, over `conf.globs`, of the root-relative POSIX names matched by
`Path(root).glob('**/' + g)`; `files` lists the root-relative names for which
`(root / name).exists()` holds. -/
structure Fs where
  globMatches : List String
  files : List String

/-- Modelled from the spec: `parse_image_lists` (hloc/utils/parsers.py, not
under src/) reads an image-list file containing one root-relative image name
per line. -/
def parseImageLists (lines : List String) : List String := lines

/-- Glob branch of `ImageDataset.__init__` (lines 102-110): raise when no
pattern matched anything, else `sorted(list(set(paths)))` converted to
root-relative POSIX names. -/
def globResolve (ms : List String) : Except DatasetErr (List String) :=
  if ms.isEmpty then .error .emptyDataset
  else .ok (List.insertionSort (· ≤ ·) ms.dedup)

/-- Existence check of `ImageDataset.__init__` (lines 120-123): the first
listed name with no file under root raises. -/
def checkExist (files names : List String) : Except DatasetErr (List String) :=
  match names.find? (fun n => decide (¬ n ∈ files)) with
  | some n => .error (.missingImage n)
  | none => .ok names

/-- Name resolution of `ImageDataset.__init__` (lines 98-123). -/
def resolveNames (fs : Fs) (pa : PathsArg) : Except DatasetErr (List String) :=
  match pa with
  | .noneArg => globResolve fs.globMatches
  | .listFile lines => checkExist fs.files (parseImageLists lines)
  | .mem entries => checkExist fs.files entries
  | .invalid => .error .invalidInput

/-- Modelled from the spec: the feature store (an h5 file manipulated through
`list_h5_names` of hloc/utils/io.py, not under src/, and h5py) is a key-value
container of one named group per image; `list_h5_names` enumerates the group
names.  The store is modelled as the list of its groups in creation order. -/
def listKeys {α : Type} (store : List (String × α)) : List String :=
  store.map Prod.fst

/-- Run-level failures of `main`: a `ValueError` from `ImageDataset.__init__`,
or the h5py error raised by `fd.create_group(name)` (line 199) when the group
already exists. -/
inductive RunErr where
  | resolveFailed (e : DatasetErr)
  | duplicateKey (name : String)
deriving DecidableEq

/-- Observable outcome of one invocation of `main`: the final store contents,
normal return or raised error, the returned feature path (when `main`
returns), whether the model was loaded (lines 174-176), the number of
inference calls (line 183), and whether `feature_path.parent.mkdir` ran
(line 167). -/
structure RunOut (α : Type) where
  store : List (String × α)
  result : Except RunErr Unit
  returnedPath : Option String
  modelLoaded : Bool
  inferCalls : Nat
  parentCreated : Bool

/-- `feature_path` resolution of `main` (lines 165-166):
`Path(export_dir, conf['output'] + '.h5')` when no explicit path is given. -/
def resolvedFeaturePath (outputName exportDir : String)
    (featurePathArg : Option String) : String :=
  featurePathArg.getD (exportDir ++ "/" ++ outputName ++ ".h5")

/-- Extraction loop of `main` (lines 178-203): for each name, skip when it is
in the `skip_names` snapshot, otherwise run inference and append a group to
the store; `fd.create_group(name)` raises when the group already exists,
aborting the run with the store as written so far.  `process` is the
per-image computation (read, preprocess, infer, postprocess), a function of
the name since images and configuration are fixed within a run. -/
def runLoop {α : Type} (process : String → α) (skipNames : List String) :
    List String → List (String × α) → Nat →
      List (String × α) × Nat × Except RunErr Unit
  | [], store, calls => (store, calls, Except.ok ())
  | name :: rest, store, calls =>
      if name ∈ skipNames then
        runLoop process skipNames rest store calls
      else if name ∈ listKeys store then
        (store, calls + 1, Except.error (RunErr.duplicateKey name))
      else
        runLoop process skipNames rest (store ++ [(name, process name)]) (calls + 1)

/-- `main` (lines 156-206): build the dataset (which resolves names and may
raise), resolve the feature path and create its parent directory, snapshot
`skip_names` from the existing store, return early when every name is already
present, else load the model and run the extraction loop.  `store0` is the
content of the feature file at `feature_path` when the run starts. -/
def mainRun {α : Type} (process : String → α) (fs : Fs) (pa : PathsArg)
    (outputName exportDir : String) (featurePathArg : Option String)
    (store0 : List (String × α)) : RunOut α :=
  match resolveNames fs pa with
  | .error e =>
      ⟨store0, .error (.resolveFailed e), none, false, 0, false⟩
  | .ok names =>
      let featurePath := resolvedFeaturePath outputName exportDir featurePathArg
      let skipNames := listKeys store0
      if ∀ n ∈ names, n ∈ skipNames then
        ⟨store0, .ok (), some featurePath, false, 0, true⟩
      else
        let r := runLoop process skipNames names store0 0
        ⟨r.1, r.2.2,
         match r.2.2 with
         | .ok _ => some featurePath
         | .error _ => none,
         true, r.2.1, true⟩

theorem pyRound_intCast (n : ℤ) : pyRound (n : ℚ) = n := by
  unfold pyRound
  rw [Int.floor_intCast]
  norm_num

theorem pyRound_le_floor_add_one (q : ℚ) : pyRound q ≤ ⌊q⌋ + 1 := by
  unfold pyRound
  split
  · omega
  · split
    · omega
    · split <;> omega

theorem pyRound_le_of_le_intCast {q : ℚ} {n : ℤ} (h : q ≤ (n : ℚ)) :
    pyRound q ≤ n := by
  have hfl : ⌊q⌋ ≤ n := by
    have h1 := Int.floor_le_floor h
    rwa [Int.floor_intCast] at h1
  rcases lt_or_eq_of_le hfl with hlt | heq
  · have h1 := pyRound_le_floor_add_one q
    omega
  · have h0 : q - ⌊q⌋ < 1/2 := by
      rw [heq]
      linarith
    unfold pyRound
    rw [if_pos h0, heq]

theorem shouldResize_iff (conf : PreprocConf) (w h : Nat)
    (hm : ∀ m, conf.resizeMax = some m → 0 < m) :
    shouldResize conf w h = true ↔
      ∃ m, conf.resizeMax = some m ∧ (conf.resizeForce = true ∨ m < max w h) := by
  unfold shouldResize
  cases hc : conf.resizeMax with
  | none => simp
  | some m =>
      have hm0 : m ≠ 0 := (hm m hc).ne'
      simp [hm0]

theorem processedSize_of_shouldResize (conf : PreprocConf) (w h : Nat) (m : Nat)
    (hc : conf.resizeMax = some m) (hs : shouldResize conf w h = true) :
    processedSize conf w h =
      (pyRound ((w : ℚ) * ((m : ℚ) / ((max h w : Nat) : ℚ))),
       pyRound ((h : ℚ) * ((m : ℚ) / ((max h w : Nat) : ℚ)))) := by
  unfold shouldResize at hs
  rw [hc] at hs
  dsimp only at hs
  unfold processedSize
  rw [hc]
  dsimp only
  rw [if_pos]
  simpa using hs

theorem processedSize_of_not_shouldResize (conf : PreprocConf) (w h : Nat)
    (hs : shouldResize conf w h = false) :
    processedSize conf w h = ((w : ℤ), (h : ℤ)) := by
  unfold shouldResize at hs
  unfold processedSize
  cases hc : conf.resizeMax with
  | none => rfl
  | some m =>
      rw [hc] at hs
      dsimp only at hs
      dsimp only
      rw [if_neg]
      simpa using hs

/-- C3: for every decoded image of width `w` and height `h`, `__getitem__`
resamples iff `resize_max` is set and (`resize_force` is true or
`max(w, h) > resize_max`); when it resamples the new dimensions are
`round(w*scale)` and `round(h*scale)` with `scale = resize_max / max(h, w)`,
the longer new dimension equals `resize_max`, and without `resize_force`
neither dimension is upscaled. -/
theorem C3_resize_policy (conf : PreprocConf) (w h : Nat)
    (hwh : 0 < max w h) (hm : ∀ m, conf.resizeMax = some m → 0 < m) :
    (shouldResize conf w h = true ↔
      ∃ m, conf.resizeMax = some m ∧ (conf.resizeForce = true ∨ m < max w h)) ∧
    (∀ m, conf.resizeMax = some m → shouldResize conf w h = true →
      processedSize conf w h =
        (pyRound ((w : ℚ) * ((m : ℚ) / ((max h w : Nat) : ℚ))),
         pyRound ((h : ℚ) * ((m : ℚ) / ((max h w : Nat) : ℚ)))) ∧
      max (processedSize conf w h).1 (processedSize conf w h).2 = (m : ℤ)) ∧
    (conf.resizeForce = false →
      (processedSize conf w h).1 ≤ (w : ℤ) ∧ (processedSize conf w h).2 ≤ (h : ℤ)) := by
  have hM0 : ((max h w : Nat) : ℚ) ≠ 0 := by
    have : 0 < max h w := by omega
    exact_mod_cast this.ne'
  refine ⟨shouldResize_iff conf w h hm, ?_, ?_⟩
  · intro m hc hs
    have heq := processedSize_of_shouldResize conf w h m hc hs
    refine ⟨heq, ?_⟩
    have hcancel : ((max h w : Nat) : ℚ) * ((m : ℚ) / ((max h w : Nat) : ℚ)) = (m : ℚ) := by
      rw [mul_comm]
      exact div_mul_cancel₀ _ hM0
    have hkey : ∀ x : Nat, x ≤ max h w →
        pyRound ((x : ℚ) * ((m : ℚ) / ((max h w : Nat) : ℚ))) ≤ (m : ℤ) := by
      intro x hx
      apply pyRound_le_of_le_intCast
      have hxle : (x : ℚ) ≤ ((max h w : Nat) : ℚ) := by exact_mod_cast hx
      have hle : (x : ℚ) * ((m : ℚ) / ((max h w : Nat) : ℚ)) ≤ (m : ℚ) := by
        calc (x : ℚ) * ((m : ℚ) / ((max h w : Nat) : ℚ))
            ≤ ((max h w : Nat) : ℚ) * ((m : ℚ) / ((max h w : Nat) : ℚ)) :=
              mul_le_mul_of_nonneg_right hxle (by positivity)
          _ = (m : ℚ) := hcancel
      exact_mod_cast hle
    have hexact : pyRound (((max h w : Nat) : ℚ) * ((m : ℚ) / ((max h w : Nat) : ℚ)))
        = (m : ℤ) := by
      rw [hcancel]
      have hmm : (((m : ℤ)) : ℚ) = (m : ℚ) := by push_cast; ring
      rw [← hmm, pyRound_intCast]
    rw [heq]
    rcases max_choice h w with hmax | hmax
    · -- max h w = h: the height is the longer side
      have hWle : w ≤ max h w := le_max_right h w
      have h2 : pyRound ((h : ℚ) * ((m : ℚ) / ((max h w : Nat) : ℚ))) = (m : ℤ) := by
        rw [← hexact, hmax]
      have h1 := hkey w hWle
      simp only [h2]
      omega
    · -- max h w = w: the width is the longer side
      have hHle : h ≤ max h w := le_max_left h w
      have h1 : pyRound ((w : ℚ) * ((m : ℚ) / ((max h w : Nat) : ℚ))) = (m : ℤ) := by
        rw [← hexact, hmax]
      have h2 := hkey h hHle
      simp only [h1]
      omega
  · intro hforce
    cases hs : shouldResize conf w h with
    | false =>
        rw [processedSize_of_not_shouldResize conf w h hs]
        exact ⟨le_refl _, le_refl _⟩
    | true =>
        obtain ⟨m, hc, hcond⟩ := (shouldResize_iff conf w h hm).mp hs
        have hmlt : m < max w h := by
          rcases hcond with hc' | hc'
          · rw [hforce] at hc'; exact absurd hc' (by simp)
          · exact hc'
        have hmle : (m : ℚ) ≤ ((max h w : Nat) : ℚ) := by
          have : m ≤ max h w := by omega
          exact_mod_cast this
        have hscale : (m : ℚ) / ((max h w : Nat) : ℚ) ≤ 1 := by
          rw [div_le_one]
          · exact hmle
          · have : 0 < max h w := by omega
            exact_mod_cast this
        have hbound : ∀ x : Nat,
            pyRound ((x : ℚ) * ((m : ℚ) / ((max h w : Nat) : ℚ))) ≤ (x : ℤ) := by
          intro x
          apply pyRound_le_of_le_intCast
          have hxle : (x : ℚ) * ((m : ℚ) / ((max h w : Nat) : ℚ)) ≤ (x : ℚ) := by
            calc (x : ℚ) * ((m : ℚ) / ((max h w : Nat) : ℚ))
                ≤ (x : ℚ) * 1 := mul_le_mul_of_nonneg_left hscale (by positivity)
              _ = (x : ℚ) := mul_one _
          exact_mod_cast hxle
        rw [processedSize_of_shouldResize conf w h m hc hs]
        exact ⟨hbound w, hbound h⟩

/-- Witness for C3: a 100×50 image with `resize_max = 80` is resampled to
80×40; the longer processed dimension is 80 and nothing is upscaled. -/
theorem C3_witness :
    (0 : Nat) < max 100 50 ∧
    shouldResize ⟨[], false, some 80, false⟩ 100 50 = true ∧
    processedSize ⟨[], false, some 80, false⟩ 100 50 = (80, 40) ∧
    max (processedSize ⟨[], false, some 80, false⟩ 100 50).1
      (processedSize ⟨[], false, some 80, false⟩ 100 50).2 = ((80 : Nat) : ℤ) ∧
    (processedSize ⟨[], false, some 80, false⟩ 100 50).1 ≤ ((100 : Nat) : ℤ) ∧
    (processedSize ⟨[], false, some 80, false⟩ 100 50).2 ≤ ((50 : Nat) : ℤ) := by
  have h := C3_resize_policy ⟨[], false, some 80, false⟩ 100 50 (by decide)
    (by intro m hm; cases hm; decide)
  have h2 := h.2.1 80 rfl (by decide)
  have h3 := h.2.2 rfl
  refine ⟨by decide, by decide, ?_, h2.2, h3.1, h3.2⟩
  norm_num [processedSize, pyRound]

/-- C2: when the inference result has a `keypoints` field, the stored
keypoints are `(keypoint + 0.5) * scale - 0.5` elementwise per axis with
`scale = original_size / processed_size` per axis (sizes in `(width, height)`
order, the scale cast to 32-bit float, modelled by `castF32`), and every
result record gets `image_size = original_size` while other fields are left
unchanged. -/
theorem C2_keypoint_rescaling (castF32 : ℚ → ℚ) (orig proc : Nat × Nat)
    (pred : PredRecord) :
    (postprocessPred castF32 orig proc pred).imageSize = some orig ∧
    (postprocessPred castF32 orig proc pred).others = pred.others ∧
    (∀ kps, pred.keypoints = some kps →
      ∃ l, (postprocessPred castF32 orig proc pred).keypoints = some l ∧
        l.length = kps.length ∧
        ∀ i (hi : i < kps.length) (hl : i < l.length),
          (l.get ⟨i, hl⟩).1 =
            ((kps.get ⟨i, hi⟩).1 + 1/2) * castF32 ((orig.1 : ℚ) / (proc.1 : ℚ)) - 1/2 ∧
          (l.get ⟨i, hl⟩).2 =
            ((kps.get ⟨i, hi⟩).2 + 1/2) * castF32 ((orig.2 : ℚ) / (proc.2 : ℚ)) - 1/2) ∧
    (pred.keypoints = none → (postprocessPred castF32 orig proc pred).keypoints = none) := by
  cases hk : pred.keypoints with
  | none =>
      refine ⟨by simp [postprocessPred, hk], by simp [postprocessPred, hk], ?_,
        fun _ => by simp [postprocessPred, hk]⟩
      intro kps hkk
      cases hkk
  | some kps0 =>
      refine ⟨by simp [postprocessPred, hk], by simp [postprocessPred, hk], ?_, ?_⟩
      · intro kps hkk
        injection hkk with hkk
        subst hkk
        refine ⟨kps0.map (fun kp =>
            ((kp.1 + 1/2) * castF32 ((orig.1 : ℚ) / (proc.1 : ℚ)) - 1/2,
             (kp.2 + 1/2) * castF32 ((orig.2 : ℚ) / (proc.2 : ℚ)) - 1/2)),
          by simp [postprocessPred, hk], by simp, ?_⟩
        intro i hi hl
        constructor
        · simp [List.get_eq_getElem, List.getElem_map]
        · simp [List.get_eq_getElem, List.getElem_map]
      · intro hnone
        cases hnone

/-- Witness for C2 on a concrete record with one keypoint. -/
theorem C2_witness :
    (postprocessPred id (100, 50) (80, 40) ⟨some [(1, 2)], none, [("scores", [3])]⟩).imageSize
      = some (100, 50) ∧
    (postprocessPred id (100, 50) (80, 40) ⟨some [(1, 2)], none, [("scores", [3])]⟩).others
      = [("scores", [3])] ∧
    ∃ l, (postprocessPred id (100, 50) (80, 40)
        ⟨some [(1, 2)], none, [("scores", [3])]⟩).keypoints = some l ∧ l.length = 1 := by
  have h := C2_keypoint_rescaling id (100, 50) (80, 40)
    ⟨some [(1, 2)], none, [("scores", [3])]⟩
  obtain ⟨l, hl, hlen, -⟩ := h.2.2.1 [(1, 2)] rfl
  exact ⟨h.1, h.2.1, l, hl, by simpa using hlen⟩

/-- C7: when the image is not resized the processed size equals the original
size, the per-axis scale is the 32-bit cast of `1`, and since that cast fixes
`1` the rescaling step returns the input keypoints exactly. -/
theorem C7_roundtrip_identity (castF32 : ℚ → ℚ) (hcast : castF32 1 = 1)
    (w h : Nat) (hw : 0 < w) (hh : 0 < h) (pred : PredRecord)
    (kps : List (ℚ × ℚ)) (hk : pred.keypoints = some kps) :
    (postprocessPred castF32 (w, h) (w, h) pred).keypoints = some kps := by
  have hw' : ((w : Nat) : ℚ) ≠ 0 := by
    exact_mod_cast hw.ne'
  have hh' : ((h : Nat) : ℚ) ≠ 0 := by
    exact_mod_cast hh.ne'
  simp [postprocessPred, hk, div_self hw', div_self hh', hcast]

/-- Witness for C7 at `castF32 = id`, a 3×2 image and two keypoints. -/
theorem C7_witness :
    (postprocessPred id (3, 2) (3, 2) ⟨some [(1, 2), (5/2, 0)], none, []⟩).keypoints
      = some [(1, 2), (5/2, 0)] :=
  C7_roundtrip_identity id rfl 3 2 (by decide) (by decide)
    ⟨some [(1, 2), (5/2, 0)], none, []⟩ [(1, 2), (5/2, 0)] rfl

/-- C6: with `as_half` requested every float32 field is converted to float16
(values converted by the modelled `.astype(np.float16)` cast `castF16`) and
every other field is left untouched; if all float fields were float32 or
float16 beforehand, all float fields of the stored record are float16; with
`as_half` off no field changes at all. -/
theorem C6_downcast (castF16 : ℚ → ℚ) (pred : List (String × NArr)) :
    downcastPred castF16 false pred = pred ∧
    (downcastPred castF16 true pred).length = pred.length ∧
    (∀ (i : Nat) (kv : String × NArr), pred[i]? = some kv →
      (downcastPred castF16 true pred)[i]? =
        some (if kv.2.dtype = .f32 then
            (kv.1, NArr.mk .f16 (kv.2.data.map castF16))
          else kv)) ∧
    ((∀ kv ∈ pred, kv.2.dtype.isFloat = true → kv.2.dtype = .f32 ∨ kv.2.dtype = .f16) →
      ∀ kv ∈ downcastPred castF16 true pred, kv.2.dtype.isFloat = true →
        kv.2.dtype = .f16) := by
  have hdef : downcastPred castF16 true pred = pred.map (fun kv =>
      if kv.2.dtype = .f32 ∧ kv.2.dtype ≠ .f16 then
        (kv.1, NArr.mk .f16 (kv.2.data.map castF16))
      else kv) := rfl
  have hcond : ∀ kv : String × NArr,
      (if kv.2.dtype = Dtype.f32 ∧ kv.2.dtype ≠ Dtype.f16 then
        (kv.1, NArr.mk .f16 (kv.2.data.map castF16))
      else kv) =
      (if kv.2.dtype = Dtype.f32 then
        (kv.1, NArr.mk .f16 (kv.2.data.map castF16))
      else kv) := by
    intro kv
    by_cases hd : kv.2.dtype = .f32
    · rw [if_pos ⟨hd, by rw [hd]; decide⟩, if_pos hd]
    · rw [if_neg (fun hand => hd hand.1), if_neg hd]
  refine ⟨rfl, by rw [hdef]; exact List.length_map _ _, ?_, ?_⟩
  · intro i kv hkv
    rw [hdef, List.getElem?_map, hkv, Option.map_some', hcond kv]
  · intro hpre kv hkv hfloat
    rw [hdef, List.mem_map] at hkv
    obtain ⟨kv0, hkv0, hkveq⟩ := hkv
    rw [hcond kv0] at hkveq
    by_cases hd : kv0.2.dtype = .f32
    · rw [if_pos hd] at hkveq
      rw [← hkveq]
    · rw [if_neg hd] at hkveq
      subst hkveq
      rcases hpre kv0 hkv0 hfloat with h32 | h16
      · exact absurd h32 hd
      · exact h16

/-- Witness for C6 on a record with a float32, a float16 and an int64 field. -/
theorem C6_witness :
    downcastPred id false
      [("descriptors", ⟨.f32, [1]⟩), ("scores", ⟨.f16, [2]⟩), ("image_size", ⟨.i64, [3]⟩)] =
      [("descriptors", ⟨.f32, [1]⟩), ("scores", ⟨.f16, [2]⟩), ("image_size", ⟨.i64, [3]⟩)] ∧
    ∀ kv ∈ downcastPred id true
      [("descriptors", ⟨.f32, [1]⟩), ("scores", ⟨.f16, [2]⟩), ("image_size", ⟨.i64, [3]⟩)],
      kv.2.dtype.isFloat = true → kv.2.dtype = .f16 := by
  have h := C6_downcast id
    [("descriptors", ⟨.f32, [1]⟩), ("scores", ⟨.f16, [2]⟩), ("image_size", ⟨.i64, [3]⟩)]
  exact ⟨h.1, h.2.2.2 (by decide)⟩

theorem listKeys_append {α : Type} (s t : List (String × α)) :
    listKeys (s ++ t) = listKeys s ++ listKeys t :=
  List.map_append _ _ _

theorem listKeys_map_pair {α : Type} (process : String → α) (l : List String) :
    listKeys (l.map fun n => (n, process n)) = l := by
  simp [listKeys, List.map_map, Function.comp_def]

theorem runLoop_cons_skip {α : Type} (process : String → α) (skip : List String)
    (name : String) (rest : List String) (store : List (String × α)) (calls : Nat)
    (hc : name ∈ skip) :
    runLoop process skip (name :: rest) store calls =
      runLoop process skip rest store calls := by
  simp only [runLoop]
  rw [if_pos hc]

theorem runLoop_cons_dup {α : Type} (process : String → α) (skip : List String)
    (name : String) (rest : List String) (store : List (String × α)) (calls : Nat)
    (hc : name ∉ skip) (hk : name ∈ listKeys store) :
    runLoop process skip (name :: rest) store calls =
      (store, calls + 1, Except.error (RunErr.duplicateKey name)) := by
  simp only [runLoop]
  rw [if_neg hc, if_pos hk]

theorem runLoop_cons_new {α : Type} (process : String → α) (skip : List String)
    (name : String) (rest : List String) (store : List (String × α)) (calls : Nat)
    (hc : name ∉ skip) (hk : name ∉ listKeys store) :
    runLoop process skip (name :: rest) store calls =
      runLoop process skip rest (store ++ [(name, process name)]) (calls + 1) := by
  simp only [runLoop]
  rw [if_neg hc, if_neg hk]

theorem runLoop_eq_of_nodup {α : Type} (process : String → α) (skip : List String)
    (names : List String) :
    ∀ (store : List (String × α)) (calls : Nat),
      names.Nodup →
      (∀ n ∈ names, n ∉ skip → n ∉ listKeys store) →
      runLoop process skip names store calls =
        (store ++ (names.filter fun n => decide (n ∉ skip)).map (fun n => (n, process n)),
         calls + (names.filter fun n => decide (n ∉ skip)).length,
         Except.ok ()) := by
  induction names with
  | nil =>
      intro store calls _ _
      simp [runLoop]
  | cons name rest ih =>
      intro store calls hnd hinv
      by_cases hc : name ∈ skip
      · have hfil : (name :: rest).filter (fun n => decide (n ∉ skip)) =
            rest.filter (fun n => decide (n ∉ skip)) := by
          rw [List.filter_cons]
          simp [hc]
        rw [runLoop_cons_skip process skip name rest store calls hc, hfil,
          ih store calls hnd.of_cons (fun n hn => hinv n (List.mem_cons_of_mem _ hn))]
      · have hself : name ∉ listKeys store := hinv name (List.mem_cons_self _ _) hc
        have hfil : (name :: rest).filter (fun n => decide (n ∉ skip)) =
            name :: rest.filter (fun n => decide (n ∉ skip)) := by
          rw [List.filter_cons]
          simp [hc]
        have hinv' : ∀ n ∈ rest, n ∉ skip → n ∉ listKeys (store ++ [(name, process name)]) := by
          intro n hn hns
          have h1 : n ∉ listKeys store := hinv n (List.mem_cons_of_mem _ hn) hns
          have h2 : n ≠ name := by
            intro heq
            subst heq
            exact (List.nodup_cons.mp hnd).1 hn
          rw [listKeys_append]
          intro hmemk
          rcases List.mem_append.mp hmemk with hmk | hmk
          · exact h1 hmk
          · exact h2 (by simpa [listKeys] using hmk)
        rw [runLoop_cons_new process skip name rest store calls hc hself,
          ih (store ++ [(name, process name)]) (calls + 1) hnd.of_cons hinv', hfil]
        rw [List.map_cons, List.length_cons, List.append_assoc, List.singleton_append]
        have harith : calls + 1 + (rest.filter fun n => decide (n ∉ skip)).length =
            calls + ((rest.filter fun n => decide (n ∉ skip)).length + 1) := by
          omega
        rw [harith]

theorem runLoop_error_of_mem {α : Type} (process : String → α) (skip : List String)
    (names : List String) :
    ∀ (store : List (String × α)) (calls : Nat) (a : String),
      a ∈ names → a ∉ skip → a ∈ listKeys store →
      ∃ d, d ∈ names ∧ d ∉ skip ∧
        (runLoop process skip names store calls).2.2 =
          Except.error (RunErr.duplicateKey d) ∧
        d ∈ listKeys (runLoop process skip names store calls).1 := by
  induction names with
  | nil =>
      intro store calls a ha _ _
      cases ha
  | cons name rest ih =>
      intro store calls a ha haskip hakeys
      by_cases hc : name ∈ skip
      · have har : a ∈ rest := by
          rcases List.mem_cons.mp ha with heq | h
          · subst heq
            exact absurd hc haskip
          · exact h
        obtain ⟨d, hd1, hd2, hd3, hd4⟩ := ih store calls a har haskip hakeys
        rw [runLoop_cons_skip process skip name rest store calls hc]
        exact ⟨d, List.mem_cons_of_mem _ hd1, hd2, hd3, hd4⟩
      · by_cases hk : name ∈ listKeys store
        · rw [runLoop_cons_dup process skip name rest store calls hc hk]
          exact ⟨name, List.mem_cons_self _ _, hc, rfl, hk⟩
        · have hanename : a ≠ name := fun heq => hk (heq ▸ hakeys)
          have har : a ∈ rest := by
            rcases List.mem_cons.mp ha with heq | h
            · exact absurd heq hanename
            · exact h
          have hakeys' : a ∈ listKeys (store ++ [(name, process name)]) := by
            rw [listKeys_append]
            exact List.mem_append_left _ hakeys
          obtain ⟨d, hd1, hd2, hd3, hd4⟩ :=
            ih (store ++ [(name, process name)]) (calls + 1) a har haskip hakeys'
          rw [runLoop_cons_new process skip name rest store calls hc hk]
          exact ⟨d, List.mem_cons_of_mem _ hd1, hd2, hd3, hd4⟩

theorem runLoop_error_of_dup {α : Type} (process : String → α) (skip : List String)
    (names : List String) :
    ∀ (store : List (String × α)) (calls : Nat),
      (∀ n ∈ names, n ∉ skip → n ∉ listKeys store) →
      ¬ ((names.filter fun n => decide (n ∉ skip)).Nodup) →
      ∃ d, d ∈ names ∧ d ∉ skip ∧ d ∉ listKeys store ∧
        (runLoop process skip names store calls).2.2 =
          Except.error (RunErr.duplicateKey d) ∧
        d ∈ listKeys (runLoop process skip names store calls).1 := by
  induction names with
  | nil =>
      intro store calls _ hdup
      simp at hdup
  | cons name rest ih =>
      intro store calls hinv hdup
      by_cases hc : name ∈ skip
      · have hfil : (name :: rest).filter (fun n => decide (n ∉ skip)) =
            rest.filter (fun n => decide (n ∉ skip)) := by
          rw [List.filter_cons]
          simp [hc]
        rw [hfil] at hdup
        obtain ⟨d, h1, h2, h3, h4, h5⟩ :=
          ih store calls (fun n hn => hinv n (List.mem_cons_of_mem _ hn)) hdup
        rw [runLoop_cons_skip process skip name rest store calls hc]
        exact ⟨d, List.mem_cons_of_mem _ h1, h2, h3, h4, h5⟩
      · have hself : name ∉ listKeys store := hinv name (List.mem_cons_self _ _) hc
        rw [runLoop_cons_new process skip name rest store calls hc hself]
        have hfil : (name :: rest).filter (fun n => decide (n ∉ skip)) =
            name :: rest.filter (fun n => decide (n ∉ skip)) := by
          rw [List.filter_cons]
          simp [hc]
        rw [hfil] at hdup
        by_cases hmem : name ∈ rest.filter (fun n => decide (n ∉ skip))
        · have hnr : name ∈ rest := (List.mem_filter.mp hmem).1
          have hkeys' : name ∈ listKeys (store ++ [(name, process name)]) := by
            rw [listKeys_append]
            exact List.mem_append_right _ (by simp [listKeys])
          obtain ⟨d, h1, h2, h3, h4⟩ := runLoop_error_of_mem process skip rest
            (store ++ [(name, process name)]) (calls + 1) name hnr hc hkeys'
          have h0 : d ∉ listKeys store := hinv d (List.mem_cons_of_mem _ h1) h2
          exact ⟨d, List.mem_cons_of_mem _ h1, h2, h0, h3, h4⟩
        · have hdup' : ¬ ((rest.filter fun n => decide (n ∉ skip)).Nodup) := by
            intro hn
            exact hdup (List.nodup_cons.mpr ⟨hmem, hn⟩)
          have hinv' : ∀ n ∈ rest, n ∉ skip →
              n ∉ listKeys (store ++ [(name, process name)]) := by
            intro n hn hns
            have h1 : n ∉ listKeys store := hinv n (List.mem_cons_of_mem _ hn) hns
            have h2 : n ≠ name := by
              intro heq
              subst heq
              exact hmem (List.mem_filter.mpr ⟨hn, by simpa using hns⟩)
            rw [listKeys_append]
            intro hmemk
            rcases List.mem_append.mp hmemk with hmk | hmk
            · exact h1 hmk
            · exact h2 (by simpa [listKeys] using hmk)
          obtain ⟨d, h1, h2, h3, h4, h5⟩ :=
            ih (store ++ [(name, process name)]) (calls + 1) hinv' hdup'
          have h3' : d ∉ listKeys store := by
            intro hd
            exact h3 (by rw [listKeys_append]; exact List.mem_append_left _ hd)
          exact ⟨d, List.mem_cons_of_mem _ h1, h2, h3', h4, h5⟩

theorem mainRun_resolveError {α : Type} (process : String → α) (fs : Fs) (pa : PathsArg)
    (out exp : String) (fp : Option String) (store0 : List (String × α)) (e : DatasetErr)
    (h : resolveNames fs pa = .error e) :
    mainRun process fs pa out exp fp store0 =
      ⟨store0, .error (.resolveFailed e), none, false, 0, false⟩ := by
  unfold mainRun
  rw [h]

theorem mainRun_allSkipped {α : Type} (process : String → α) (fs : Fs) (pa : PathsArg)
    (out exp : String) (fp : Option String) (store0 : List (String × α))
    (names : List String)
    (h : resolveNames fs pa = .ok names)
    (hall : ∀ n ∈ names, n ∈ listKeys store0) :
    mainRun process fs pa out exp fp store0 =
      ⟨store0, .ok (), some (resolvedFeaturePath out exp fp), false, 0, true⟩ := by
  unfold mainRun
  rw [h]
  dsimp only
  rw [if_pos hall]

theorem mainRun_processing {α : Type} (process : String → α) (fs : Fs) (pa : PathsArg)
    (out exp : String) (fp : Option String) (store0 : List (String × α))
    (names : List String)
    (h : resolveNames fs pa = .ok names)
    (hnall : ¬ ∀ n ∈ names, n ∈ listKeys store0) :
    (mainRun process fs pa out exp fp store0).store =
      (runLoop process (listKeys store0) names store0 0).1 ∧
    (mainRun process fs pa out exp fp store0).result =
      (runLoop process (listKeys store0) names store0 0).2.2 ∧
    (mainRun process fs pa out exp fp store0).inferCalls =
      (runLoop process (listKeys store0) names store0 0).2.1 ∧
    (mainRun process fs pa out exp fp store0).modelLoaded = true ∧
    (mainRun process fs pa out exp fp store0).parentCreated = true := by
  unfold mainRun
  rw [h]
  dsimp only
  rw [if_neg hnall]
  exact ⟨rfl, rfl, rfl, rfl, rfl⟩

theorem mainRun_of_nodup {α : Type} (process : String → α) (fs : Fs) (pa : PathsArg)
    (out exp : String) (fp : Option String) (store0 : List (String × α))
    (names : List String)
    (h : resolveNames fs pa = .ok names) (hnd : names.Nodup) :
    (mainRun process fs pa out exp fp store0).store =
      store0 ++ ((names.filter fun n => decide (n ∉ listKeys store0)).map
        fun n => (n, process n)) ∧
    (mainRun process fs pa out exp fp store0).result = .ok () ∧
    (mainRun process fs pa out exp fp store0).inferCalls =
      (names.filter fun n => decide (n ∉ listKeys store0)).length ∧
    (mainRun process fs pa out exp fp store0).returnedPath =
      some (resolvedFeaturePath out exp fp) ∧
    (mainRun process fs pa out exp fp store0).parentCreated = true := by
  by_cases hall : ∀ n ∈ names, n ∈ listKeys store0
  · rw [mainRun_allSkipped process fs pa out exp fp store0 names h hall]
    have hfil : names.filter (fun n => decide (n ∉ listKeys store0)) = [] := by
      rw [List.filter_eq_nil_iff]
      intro a ha
      simpa using hall a ha
    rw [hfil]
    simp
  · have hloop := runLoop_eq_of_nodup process (listKeys store0) names store0 0 hnd
      (fun n _ hn => hn)
    obtain ⟨h1, h2, h3, -, h5⟩ :=
      mainRun_processing process fs pa out exp fp store0 names h hall
    refine ⟨by rw [h1, hloop], by rw [h2, hloop], by rw [h3, hloop]; simp, ?_, h5⟩
    unfold mainRun
    rw [h]
    dsimp only
    rw [if_neg hall]
    dsimp only
    rw [hloop]

/-- C5 (amended): glob discovery yields a deduplicated, lexicographically
sorted sequence of root-relative POSIX names containing exactly the matched
names, and is a function of the matched set alone (hence re-resolving the
same root is deterministic); an explicit in-memory list is passed through in
its given order after the existence check, without deduplication. -/
theorem C5_resolution_shape (fs : Fs) :
    (fs.globMatches ≠ [] →
      ∃ l, resolveNames fs .noneArg = .ok l ∧
        l.Sorted (· ≤ ·) ∧ l.Nodup ∧ (∀ n, n ∈ l ↔ n ∈ fs.globMatches)) ∧
    (∀ fs' : Fs, fs'.globMatches = fs.globMatches →
      resolveNames fs' .noneArg = resolveNames fs .noneArg) ∧
    (∀ entries, (∀ n ∈ entries, n ∈ fs.files) →
      resolveNames fs (.mem entries) = .ok entries) := by
  refine ⟨?_, ?_, ?_⟩
  · intro hne
    refine ⟨List.insertionSort (· ≤ ·) fs.globMatches.dedup, ?_, ?_, ?_, ?_⟩
    · unfold resolveNames globResolve
      rw [if_neg (by simpa using hne)]
    · exact List.sorted_insertionSort _ _
    · exact (List.perm_insertionSort _ _).nodup_iff.mpr (List.nodup_dedup _)
    · intro n
      rw [(List.perm_insertionSort _ _).mem_iff, List.mem_dedup]
  · intro fs' heq
    unfold resolveNames globResolve
    rw [heq]
  · intro entries hall
    unfold resolveNames checkExist
    dsimp only
    have hfind : entries.find? (fun n => decide (¬ n ∈ fs.files)) = none := by
      rw [List.find?_eq_none]
      intro x hx
      simpa using hall x hx
    rw [hfind]

/-- C5 counterexample: an explicit in-memory list with a repeated name is
passed through by `ImageDataset.__init__` without deduplication, so the
resolver does not always produce a deduplicated sequence. -/
theorem C5_counterexample :
    resolveNames ⟨["a.jpg"], ["a.jpg"]⟩ (.mem ["a.jpg", "a.jpg"]) =
      .ok ["a.jpg", "a.jpg"] ∧
    ¬ (["a.jpg", "a.jpg"] : List String).Nodup := by
  exact ⟨rfl, by decide⟩

/-- Witness for the amended C5: glob discovery on two matches, and an
explicit duplicated list passed through unchanged. -/
theorem C5_witness :
    (∃ l, resolveNames ⟨["b.png", "a.jpg"], ["c.jpg"]⟩ .noneArg = .ok l ∧
      l.Sorted (· ≤ ·) ∧ l.Nodup ∧ (∀ n, n ∈ l ↔ n ∈ ["b.png", "a.jpg"])) ∧
    resolveNames ⟨["b.png", "a.jpg"], ["c.jpg"]⟩ (.mem ["c.jpg", "c.jpg"]) =
      .ok ["c.jpg", "c.jpg"] := by
  have h := C5_resolution_shape ⟨["b.png", "a.jpg"], ["c.jpg"]⟩
  exact ⟨h.1 (by decide), h.2.2 ["c.jpg", "c.jpg"] (by decide)⟩

/-- C8: empty glob discovery, an explicitly listed name with no file under
root, and an unrecognized `paths` argument each abort name resolution with
the corresponding error, and `main` then raises before creating the export
directory, loading the inference backend or running any inference. -/
theorem C8_failfast {α : Type} (process : String → α) (fs : Fs)
    (out exp : String) (fp : Option String) (store0 : List (String × α)) :
    (fs.globMatches = [] →
      resolveNames fs .noneArg = .error .emptyDataset ∧
      mainRun process fs .noneArg out exp fp store0 =
        ⟨store0, .error (.resolveFailed .emptyDataset), none, false, 0, false⟩) ∧
    (∀ entries (n : String), n ∈ entries → n ∉ fs.files →
      ∃ miss, miss ∉ fs.files ∧
        resolveNames fs (.mem entries) = .error (.missingImage miss) ∧
        mainRun process fs (.mem entries) out exp fp store0 =
          ⟨store0, .error (.resolveFailed (.missingImage miss)), none, false, 0, false⟩) ∧
    (resolveNames fs .invalid = .error .invalidInput ∧
      mainRun process fs .invalid out exp fp store0 =
        ⟨store0, .error (.resolveFailed .invalidInput), none, false, 0, false⟩) := by
  refine ⟨?_, ?_, ?_⟩
  · intro hempty
    have hres : resolveNames fs .noneArg = .error .emptyDataset := by
      unfold resolveNames globResolve
      rw [if_pos (by simpa using hempty)]
    exact ⟨hres, mainRun_resolveError process fs .noneArg out exp fp store0 _ hres⟩
  · intro entries n hn hnf
    have hsome : (entries.find? (fun n => decide (¬ n ∈ fs.files))).isSome := by
      rw [List.find?_isSome]
      exact ⟨n, hn, by simpa using hnf⟩
    obtain ⟨miss, hmiss⟩ := Option.isSome_iff_exists.mp hsome
    have hmprop : miss ∉ fs.files := by
      have := List.find?_some hmiss
      simpa using this
    have hres : resolveNames fs (.mem entries) = .error (.missingImage miss) := by
      unfold resolveNames checkExist
      dsimp only
      rw [hmiss]
    exact ⟨miss, hmprop, hres,
      mainRun_resolveError process fs (.mem entries) out exp fp store0 _ hres⟩
  · have hres : resolveNames fs .invalid = .error .invalidInput := rfl
    exact ⟨hres, mainRun_resolveError process fs .invalid out exp fp store0 _ hres⟩

/-- Witness for C8 on a filesystem with no glob matches and no files. -/
theorem C8_witness :
    resolveNames ⟨[], []⟩ .noneArg = .error .emptyDataset ∧
    (mainRun (fun _ => (0 : Nat)) ⟨[], []⟩ .noneArg "f" "e" none []).modelLoaded = false ∧
    (∃ miss, miss ∉ (⟨[], []⟩ : Fs).files ∧
      resolveNames ⟨[], []⟩ (.mem ["img.jpg"]) = .error (.missingImage miss) ∧
      mainRun (fun _ => (0 : Nat)) ⟨[], []⟩ (.mem ["img.jpg"]) "f" "e" none [] =
        ⟨[], .error (.resolveFailed (.missingImage miss)), none, false, 0, false⟩) ∧
    resolveNames ⟨[], []⟩ .invalid = .error .invalidInput := by
  have h := C8_failfast (fun _ => (0 : Nat)) (⟨[], []⟩ : Fs) "f" "e" none []
  have h1 := h.1 rfl
  exact ⟨h1.1, by rw [h1.2], h.2.1 ["img.jpg"] "img.jpg" (by decide) (by decide), h.2.2.1⟩

/-- C4: when every resolved name is already a key of the existing store,
`main` returns the feature path successfully without loading the inference
backend and with zero inference calls, leaving the store untouched. -/
theorem C4_skip_all {α : Type} (process : String → α) (fs : Fs) (pa : PathsArg)
    (out exp : String) (fp : Option String) (store0 : List (String × α))
    (names : List String)
    (hres : resolveNames fs pa = .ok names)
    (hall : ∀ n ∈ names, n ∈ listKeys store0) :
    mainRun process fs pa out exp fp store0 =
      ⟨store0, .ok (), some (resolvedFeaturePath out exp fp), false, 0, true⟩ :=
  mainRun_allSkipped process fs pa out exp fp store0 names hres hall

/-- Witness for C4: one image, already present in the store. -/
theorem C4_witness :
    mainRun (fun _ => (0 : Nat)) ⟨[], ["a.jpg"]⟩ (.mem ["a.jpg"]) "f" "e" none
        [("a.jpg", 7)] =
      ⟨[("a.jpg", 7)], .ok (), some (resolvedFeaturePath "f" "e" none), false, 0, true⟩ :=
  C4_skip_all (fun _ => (0 : Nat)) ⟨[], ["a.jpg"]⟩ (.mem ["a.jpg"]) "f" "e" none
    [("a.jpg", 7)] ["a.jpg"] rfl (by decide)

/-- C10: whenever name resolution succeeds, the parent directory of the
feature path is created — also in the all-skipped case — and whenever `main`
returns (all-skipped or full processing) it returns the same resolved
feature path. -/
theorem C10_parent_dir_and_path {α : Type} (process : String → α) (fs : Fs)
    (pa : PathsArg) (out exp : String) (fp : Option String)
    (store0 : List (String × α)) (names : List String)
    (hres : resolveNames fs pa = .ok names) :
    (mainRun process fs pa out exp fp store0).parentCreated = true ∧
    ((mainRun process fs pa out exp fp store0).result = .ok () →
      (mainRun process fs pa out exp fp store0).returnedPath =
        some (resolvedFeaturePath out exp fp)) := by
  unfold mainRun
  rw [hres]
  dsimp only
  by_cases hall : ∀ n ∈ names, n ∈ listKeys store0
  · rw [if_pos hall]
    exact ⟨rfl, fun _ => rfl⟩
  · rw [if_neg hall]
    refine ⟨rfl, ?_⟩
    intro hok
    dsimp only at hok ⊢
    cases hr : (runLoop process (listKeys store0) names store0 0).2.2 with
    | ok u => rfl
    | error e =>
        rw [hr] at hok
        simp at hok

/-- Witness for C10: a fresh store with one image to process. -/
theorem C10_witness :
    (mainRun (fun _ => (0 : Nat)) ⟨[], ["a.jpg"]⟩ (.mem ["a.jpg"]) "f" "e" none
      []).parentCreated = true ∧
    ((mainRun (fun _ => (0 : Nat)) ⟨[], ["a.jpg"]⟩ (.mem ["a.jpg"]) "f" "e" none
        []).result = .ok () →
      (mainRun (fun _ => (0 : Nat)) ⟨[], ["a.jpg"]⟩ (.mem ["a.jpg"]) "f" "e" none
        []).returnedPath = some (resolvedFeaturePath "f" "e" none)) :=
  C10_parent_dir_and_path (fun _ => (0 : Nat)) ⟨[], ["a.jpg"]⟩ (.mem ["a.jpg"])
    "f" "e" none [] ["a.jpg"] rfl

/-- C9: an explicit in-memory list naming the same image twice, where that
image is not yet in the store, makes the run raise on the second group
creation; the failing run leaves a store that already contains the
duplicated name (its first occurrence was written). -/
theorem C9_duplicate_name_fails {α : Type} (process : String → α) (fs : Fs)
    (out exp : String) (fp : Option String) (store0 : List (String × α))
    (entries : List String) (a : String)
    (hcount : 2 ≤ entries.count a)
    (hnot : a ∉ listKeys store0)
    (hex : ∀ n ∈ entries, n ∈ fs.files) :
    ∃ d, d ∉ listKeys store0 ∧
      (mainRun process fs (.mem entries) out exp fp store0).result =
        Except.error (RunErr.duplicateKey d) ∧
      d ∈ listKeys (mainRun process fs (.mem entries) out exp fp store0).store := by
  have hres : resolveNames fs (.mem entries) = .ok entries := by
    unfold resolveNames checkExist
    dsimp only
    have hfind : entries.find? (fun n => decide (¬ n ∈ fs.files)) = none := by
      rw [List.find?_eq_none]
      intro x hx
      simpa using hex x hx
    rw [hfind]
  have hamem : a ∈ entries := List.count_pos_iff.mp (by omega)
  have hnall : ¬ ∀ n ∈ entries, n ∈ listKeys store0 := fun hall => hnot (hall a hamem)
  have hdup : ¬ ((entries.filter fun n => decide (n ∉ listKeys store0)).Nodup) := by
    intro hnd
    have h1 : (entries.filter fun n => decide (n ∉ listKeys store0)).count a =
        entries.count a := List.count_filter (by simpa using hnot)
    have h2 := List.nodup_iff_count_le_one.mp hnd a
    omega
  obtain ⟨d, hd1, hd2, hd3, hd4, hd5⟩ := runLoop_error_of_dup process
    (listKeys store0) entries store0 0 (fun n _ hn => hn) hdup
  obtain ⟨hst, hre, -, -, -⟩ :=
    mainRun_processing process fs (.mem entries) out exp fp store0 entries hres hnall
  exact ⟨d, hd3, by rw [hre]; exact hd4, by rw [hst]; exact hd5⟩

/-- Witness for C9: the list `["a.jpg", "a.jpg"]` on a fresh store. -/
theorem C9_witness :
    ∃ d, d ∉ listKeys ([] : List (String × Nat)) ∧
      (mainRun (fun _ => (0 : Nat)) ⟨[], ["a.jpg"]⟩ (.mem ["a.jpg", "a.jpg"])
        "f" "e" none []).result = Except.error (RunErr.duplicateKey d) ∧
      d ∈ listKeys (mainRun (fun _ => (0 : Nat)) ⟨[], ["a.jpg"]⟩
        (.mem ["a.jpg", "a.jpg"]) "f" "e" none []).store :=
  C9_duplicate_name_fails (fun _ => (0 : Nat)) ⟨[], ["a.jpg"]⟩ "f" "e" none []
    ["a.jpg", "a.jpg"] "a.jpg" (by decide) (by decide) (by decide)

theorem filter_not_mem_left (l₁ l₂ : List String) (h : ∀ a ∈ l₂, a ∉ l₁) :
    (l₁ ++ l₂).filter (fun n => decide (n ∉ l₁)) = l₂ := by
  rw [List.filter_append]
  have h1 : l₁.filter (fun n => decide (n ∉ l₁)) = [] := by
    rw [List.filter_eq_nil_iff]
    intro a ha
    simp [ha]
  have h2 : l₂.filter (fun n => decide (n ∉ l₁)) = l₂ := by
    rw [List.filter_eq_self]
    intro a ha
    simpa using h a ha
  rw [h1, h2, List.nil_append]

theorem filter_not_mem_take {l : List String} (hnd : l.Nodup) (N : Nat) :
    l.filter (fun n => decide (n ∉ l.take N)) = l.drop N := by
  have hdis : ∀ a ∈ l.drop N, a ∉ l.take N := by
    intro a ha hta
    exact List.disjoint_take_drop hnd (le_refl N) hta ha
  have h := filter_not_mem_left (l.take N) (l.drop N) hdis
  rwa [List.take_append_drop] at h

/-- C1: a name present in the store when the run starts is skipped and never
overwritten, and the store gains only groups for names not previously
present; a second run with the same inputs and output store leaves the store
exactly as after the first run and performs no inference; and a run
interrupted after the first `N` pending names were persisted is completed by
a rerun that processes exactly the remaining pending names. -/
theorem C1_resumable {α : Type} (process : String → α) (fs : Fs) (pa : PathsArg)
    (out exp : String) (fp : Option String) (store0 : List (String × α))
    (names : List String)
    (hres : resolveNames fs pa = .ok names) (hnd : names.Nodup) :
    (∃ gained, (mainRun process fs pa out exp fp store0).store = store0 ++ gained ∧
      ∀ kv ∈ gained, kv.1 ∉ listKeys store0) ∧
    ((mainRun process fs pa out exp fp store0).result = .ok () ∧
      mainRun process fs pa out exp fp (mainRun process fs pa out exp fp store0).store =
        ⟨(mainRun process fs pa out exp fp store0).store, .ok (),
         some (resolvedFeaturePath out exp fp), false, 0, true⟩) ∧
    (∀ N : Nat,
      (mainRun process fs pa out exp fp
        (store0 ++ ((names.filter fun n => decide (n ∉ listKeys store0)).take N).map
          (fun n => (n, process n)))).result = .ok () ∧
      (mainRun process fs pa out exp fp
        (store0 ++ ((names.filter fun n => decide (n ∉ listKeys store0)).take N).map
          (fun n => (n, process n)))).inferCalls =
        (names.filter fun n => decide (n ∉ listKeys store0)).length - N ∧
      (mainRun process fs pa out exp fp
        (store0 ++ ((names.filter fun n => decide (n ∉ listKeys store0)).take N).map
          (fun n => (n, process n)))).store =
        (store0 ++ ((names.filter fun n => decide (n ∉ listKeys store0)).take N).map
          (fun n => (n, process n))) ++
          ((names.filter fun n => decide (n ∉ listKeys store0)).drop N).map
            (fun n => (n, process n))) := by
  obtain ⟨hst, hok, hcalls, hpath, hpc⟩ :=
    mainRun_of_nodup process fs pa out exp fp store0 names hres hnd
  refine ⟨⟨_, hst, ?_⟩, ⟨hok, ?_⟩, ?_⟩
  · intro kv hkv
    rw [List.mem_map] at hkv
    obtain ⟨n, hn, rfl⟩ := hkv
    have hmem := (List.mem_filter.mp hn).2
    simpa using hmem
  · apply mainRun_allSkipped process fs pa out exp fp _ names hres
    intro n hn
    rw [hst, listKeys_append, listKeys_map_pair, List.mem_append]
    by_cases hk : n ∈ listKeys store0
    · exact Or.inl hk
    · exact Or.inr (List.mem_filter.mpr ⟨hn, by simpa using hk⟩)
  · intro N
    have hkeys : listKeys (store0 ++
        ((names.filter fun n => decide (n ∉ listKeys store0)).take N).map
          (fun n => (n, process n))) =
        listKeys store0 ++ (names.filter fun n => decide (n ∉ listKeys store0)).take N := by
      rw [listKeys_append, listKeys_map_pair]
    obtain ⟨hst1, hok1, hcalls1, hpath1, hpc1⟩ :=
      mainRun_of_nodup process fs pa out exp fp
        (store0 ++ ((names.filter fun n => decide (n ∉ listKeys store0)).take N).map
          (fun n => (n, process n))) names hres hnd
    have hfil : names.filter (fun n => decide (n ∉ listKeys (store0 ++
        ((names.filter fun n => decide (n ∉ listKeys store0)).take N).map
          (fun n => (n, process n))))) =
        (names.filter fun n => decide (n ∉ listKeys store0)).drop N := by
      have hstep : ∀ n ∈ names,
          (decide (n ∉ listKeys (store0 ++
            ((names.filter fun n => decide (n ∉ listKeys store0)).take N).map
              (fun n => (n, process n)))) : Bool) =
          (decide (n ∉ (names.filter fun n => decide (n ∉ listKeys store0)).take N) &&
           decide (n ∉ listKeys store0)) := by
        intro n _
        rw [hkeys]
        by_cases h1 : n ∈ listKeys store0 <;>
          by_cases h2 : n ∈ (names.filter fun n => decide (n ∉ listKeys store0)).take N <;>
          simp [h1, h2]
      rw [List.filter_congr hstep, ← List.filter_filter]
      exact filter_not_mem_take (hnd.filter _) N
    refine ⟨hok1, ?_, ?_⟩
    · rw [hcalls1, hfil, List.length_drop]
    · rw [hst1, hfil]

/-- Witness for C1: idempotence of a rerun after a first run on two images,
one of which is already stored. -/
theorem C1_witness :
    (mainRun (fun _ => (0 : Nat)) ⟨[], ["a.jpg", "b.jpg"]⟩ (.mem ["a.jpg", "b.jpg"])
        "f" "e" none [("a.jpg", 7)]).result = .ok () ∧
    mainRun (fun _ => (0 : Nat)) ⟨[], ["a.jpg", "b.jpg"]⟩ (.mem ["a.jpg", "b.jpg"])
        "f" "e" none
        (mainRun (fun _ => (0 : Nat)) ⟨[], ["a.jpg", "b.jpg"]⟩ (.mem ["a.jpg", "b.jpg"])
          "f" "e" none [("a.jpg", 7)]).store =
      ⟨(mainRun (fun _ => (0 : Nat)) ⟨[], ["a.jpg", "b.jpg"]⟩ (.mem ["a.jpg", "b.jpg"])
          "f" "e" none [("a.jpg", 7)]).store, .ok (),
        some (resolvedFeaturePath "f" "e" none), false, 0, true⟩ :=
  (C1_resumable (fun _ => (0 : Nat)) ⟨[], ["a.jpg", "b.jpg"]⟩ (.mem ["a.jpg", "b.jpg"])
    "f" "e" none [("a.jpg", 7)] ["a.jpg", "b.jpg"] rfl (by decide)).2.1

end HlocExtract
